import Mathlib

/-!
Shallow embedding of `src/Colocations.py` (class `Colocation`): a pipeline
turning a mobility-trace record table into co-location events.  Pandas
dataframes become lists of records kept in row order; numpy int64 timestamps
become `Int`; float coordinates and radii become exact rationals.
-/

namespace Colocations

/-- One row of the dataframe after preprocessing.  The
`short_range_communication_area` column is a disk around the position; we keep
its radius in `comm_radius` (the center is the record's position). -/
structure Record where
  user_id : Nat
  latitude : ℚ
  longitude : ℚ
  sampletimestamp : Int
  accuracy : ℚ
  comm_radius : ℚ := 0
deriving DecidableEq, Repr

/-- Order-preserving deduplication, the semantics of pandas
`Series.unique()`: first occurrence of each value, in order of appearance.
Written with a `seen` accumulator so it reduces structurally. -/
def uniqueAux {α : Type} [DecidableEq α] : List α → List α → List α
  | [], _ => []
  | x :: xs, seen => if x ∈ seen then uniqueAux xs seen else x :: uniqueAux xs (x :: seen)

/-- pandas `Series.unique()` : distinct values in order of first appearance. -/
def unique {α : Type} [DecidableEq α] (l : List α) : List α :=
  uniqueAux l []

/-- pandas `Series.min()` on a list of integers.  An empty series yields NaN in
pandas; the `[]` case below is never reached where this helper is used (callers
establish nonemptiness), so we return `0` there. -/
def seriesMin : List Int → Int
  | [] => 0
  | h :: t => t.foldl min h

/-- pandas `Series.max()` on a list of integers (see `seriesMin` for the
empty case). -/
def seriesMax : List Int → Int
  | [] => 0
  | h :: t => t.foldl max h

/-- `users_mapping` (Colocations.py:78-87): `users = data.user_id.unique()`,
`map_uid = dict(zip(users, arange(0, len(users))))`,
`data = data.replace({"user_id": map_uid})`.  Replacing through the zipped
dictionary sends the `k`-th first-appearing user id to `k`, i.e. to its index
in the `unique` list. -/
def users_mapping (data : List Record) : List Record :=
  let users := unique (data.map (·.user_id))
  data.map (fun r => { r with user_id := List.indexOf r.user_id users })

/-- `accuracy_threshold` (Colocations.py:103-114):
`data = data.loc[data.accuracy <= limit]`. -/
def accuracy_threshold (limit : ℚ) (data : List Record) : List Record :=
  data.filter (fun r => decide (r.accuracy ≤ limit))

/-- `add_short_range_communication_area` (Colocations.py:116-127):
`data["short_range_communication_area"] = points_from_xy(lat, lon).buffer(dst/100000)`.
We record the buffered disk by storing its radius `dst / 100000` on the row. -/
def add_short_range_communication_area (dst : ℚ) (data : List Record) : List Record :=
  data.map (fun r => { r with comm_radius := dst / 100000 })

/-- The geometric test at Colocations.py:190:
`i.short_range_communication_area.intersects(j.short_range_communication_area)`.
The buffered areas are disks around `(latitude, longitude)`; two closed disks
intersect iff the distance of their centers is at most the sum of their radii.
We state this with squared quantities to stay in ℚ (shapely's polygonal
approximation of the disk and float rounding are idealized away as exact
geometry). -/
def area_intersects (a b : Record) : Bool :=
  decide ((a.latitude - b.latitude) ^ 2 + (a.longitude - b.longitude) ^ 2 ≤
    (a.comm_radius + b.comm_radius) ^ 2)

/-- Minimum of the `sampletimestamp` column (`data.sampletimestamp.min()`). -/
def min_stp (data : List Record) : Int :=
  seriesMin (data.map (·.sampletimestamp))

/-- Maximum of the `sampletimestamp` column (`data.sampletimestamp.max()`). -/
def max_stp (data : List Record) : Int :=
  seriesMax (data.map (·.sampletimestamp))

/-- The loop body of `dataframe_split` (Colocations.py:151-159): `n` more
iterations to run, `m` the current `min_stp`.  Each iteration keeps the rows
with `min_stp <= t <= min_stp + tw` (both bounds inclusive) and then advances
`min_stp` by `tw`. -/
def split_loop (data : List Record) (tw : Int) : Int → Nat → List (List Record)
  | _, 0 => []
  | m, n + 1 =>
    data.filter (fun r => decide (m ≤ r.sampletimestamp) && decide (r.sampletimestamp ≤ m + tw)) ::
      split_loop data tw (m + tw) n

/-- `dataframe_split` (Colocations.py:129-161).  `df_s = int((max-min)/tw)+1`:
Python's `int(float)` truncates toward zero, which on exact values is
`Int.tdiv`.  The call fails (None) when the data is empty (`min()`/`max()` of
an empty series is NaN and `int(NaN)` raises) or when `tw = 0` (the division
raises); there is no other validation of `tw` in the source. -/
def dataframe_split (data : List Record) (tw : Int) : Option (List (List Record)) :=
  if data = [] then none
  else if tw = 0 then none
  else
    let mn := min_stp data
    let mx := max_stp data
    let df_s := Int.tdiv (mx - mn) tw + 1
    some (split_loop data tw mn df_s.toNat)

/-- One row of a per-window intersections dataframe (Colocations.py:191,194):
`[i.user_id, i.sampletimestamp, j.user_id, j.sampletimestamp]` with columns
`["uid_1", "timestamp_uid_1", "uid_2", "timestamp_uid_2"]`. -/
structure OverlapEvent where
  uid_1 : Nat
  timestamp_uid_1 : Int
  uid_2 : Nat
  timestamp_uid_2 : Int
deriving DecidableEq, Repr

/-- `df_dfs[user]` (Colocations.py:181): the rows of the partition belonging
to one user, in row order. -/
def user_records (p : List Record) (u : Nat) : List Record :=
  p.filter (fun r => decide (r.user_id = u))

/-- The three inner loops of `get_intersections` (Colocations.py:187-191) for
one fixed `subject`: `for i in df_dfs[subject] / for usr in other_users /
for j in df_dfs[usr]`, keeping the record pairs `(i, j)` whose areas
intersect. -/
def subject_pairs (p : List Record) (subject : Nat) (other_users : List Nat) :
    List (Record × Record) :=
  (user_records p subject).flatMap fun i =>
    other_users.flatMap fun usr =>
      ((user_records p usr).filter (fun j => area_intersects i j)).map fun j => (i, j)

/-- The outer loop `for k in range(len(users)-1)` of `get_intersections`
(Colocations.py:184-186): `subject = users[k]`, `other_users = users[k+1:]`,
realized by structural recursion on the user list. -/
def pairs_loop (p : List Record) : List Nat → List (Record × Record)
  | [] => []
  | u :: rest => subject_pairs p u rest ++ pairs_loop p rest

/-- All record pairs of one partition accepted by the intersection test, in
the order the loops of Colocations.py:184-191 visit them. -/
def overlap_pairs (p : List Record) : List (Record × Record) :=
  pairs_loop p (unique (p.map (·.user_id)))

/-- The appended row for an accepted record pair (Colocations.py:191). -/
def mkOverlap (ij : Record × Record) : OverlapEvent :=
  ⟨ij.1.user_id, ij.1.sampletimestamp, ij.2.user_id, ij.2.sampletimestamp⟩

/-- The intersections dataframe of one partition (Colocations.py:176-194):
one `OverlapEvent` row per accepted record pair, in loop order. -/
def window_intersections (p : List Record) : List OverlapEvent :=
  (overlap_pairs p).map mkOverlap

/-- `get_intersections` (Colocations.py:163-198): split with the default
window `tw = 150` (the call at line 173 passes no argument) and compute each
partition's intersections dataframe. -/
def get_intersections (data : List Record) : Option (List (List OverlapEvent)) :=
  (dataframe_split data 150).map (fun dfs => dfs.map window_intersections)

/-- The `connection` column: `"up"` or `"down"`. -/
inductive Direction where
  | up : Direction
  | down : Direction
deriving DecidableEq, Repr

/-- One row of the final co-locations dataframe (Colocations.py:224-230),
columns `["node_1", "node_2", "timestamp", "connection"]`. -/
structure ColocationEvent where
  node_1 : Nat
  node_2 : Nat
  timestamp : Int
  connection : Direction
deriving DecidableEq, Repr

/-- The rows of a window's intersections dataframe matching one couple
(Colocations.py:221): `sc = df[(df.uid_1 == couple[0]) & (df.uid_2 == couple[1])]`. -/
def couple_rows (df : List OverlapEvent) (c0 c1 : Nat) : List OverlapEvent :=
  df.filter (fun e => decide (e.uid_1 = c0) && decide (e.uid_2 = c1))

/-- `df_time = pd.concat([sc.timestamp_uid_1, sc.timestamp_uid_2])`
(Colocations.py:223): the uid_1-side timestamps followed by the uid_2-side
timestamps of the couple's rows. -/
def couple_times (df : List OverlapEvent) (c0 c1 : Nat) : List Int :=
  (couple_rows df c0 c1).map (·.timestamp_uid_1) ++
    (couple_rows df c0 c1).map (·.timestamp_uid_2)

/-- The four rows appended for one couple (Colocations.py:224-227). -/
def couple_colocations (df : List OverlapEvent) (c0 c1 : Nat) : List ColocationEvent :=
  let ts := couple_times df c0 c1
  [⟨c0, c1, seriesMin ts, .up⟩, ⟨c0, c1, seriesMax ts, .down⟩,
   ⟨c1, c0, seriesMin ts, .up⟩, ⟨c1, c0, seriesMax ts, .down⟩]

/-- `users_couples` (Colocations.py:215-216): the distinct `(uid_1, uid_2)`
pairs of the window's rows.  The source collects them through a Python `set`;
we keep the same elements in first-appearance order (iteration order of a
CPython set is an artifact of its hash table and is not modelled). -/
def users_couples (df : List OverlapEvent) : List (Nat × Nat) :=
  unique (df.map (fun e => (e.uid_1, e.uid_2)))

/-- The co-locations dataframe of one window (Colocations.py:218-230): four
rows per couple, couples in the order of `users_couples`. -/
def window_colocations (df : List OverlapEvent) : List ColocationEvent :=
  (users_couples df).flatMap (fun c => couple_colocations df c.1 c.2)

/-- `get_colocations` (Colocations.py:200-242): concatenate the windows'
co-location dataframes in window order; `reset_index().filter([...])`
re-indexes rows sequentially, which a list represents implicitly. -/
def get_colocations (data : List Record) : Option (List ColocationEvent) :=
  (get_intersections data).map (fun dfs => (dfs.map window_colocations).flatten)

/-! ### Basic facts about `unique` -/

theorem mem_uniqueAux {α : Type} [DecidableEq α] {a : α} :
    ∀ {l seen : List α}, a ∈ uniqueAux l seen ↔ a ∈ l ∧ a ∉ seen := by
  intro l
  induction l with
  | nil => intro seen; simp [uniqueAux]
  | cons x xs ih =>
    intro seen
    by_cases hx : x ∈ seen
    · simp only [uniqueAux, if_pos hx]
      rw [ih]
      constructor
      · rintro ⟨h1, h2⟩; exact ⟨List.mem_cons_of_mem _ h1, h2⟩
      · rintro ⟨h1, h2⟩
        rcases List.mem_cons.1 h1 with rfl | h1
        · exact absurd hx h2
        · exact ⟨h1, h2⟩
    · simp only [uniqueAux, if_neg hx]
      constructor
      · intro hmem
        rcases List.mem_cons.1 hmem with rfl | hmem
        · exact ⟨List.mem_cons_self _ _, hx⟩
        · obtain ⟨h1, h2⟩ := ih.1 hmem
          exact ⟨List.mem_cons_of_mem _ h1, fun hs => h2 (List.mem_cons_of_mem _ hs)⟩
      · rintro ⟨h1, h2⟩
        rcases List.mem_cons.1 h1 with rfl | h1
        · exact List.mem_cons_self _ _
        · by_cases hax : a = x
          · exact hax ▸ List.mem_cons_self _ _
          · exact List.mem_cons_of_mem _
              (ih.2 ⟨h1, fun hs => (List.mem_cons.1 hs).elim hax h2⟩)

theorem mem_unique {α : Type} [DecidableEq α] {a : α} {l : List α} :
    a ∈ unique l ↔ a ∈ l := by
  simp [unique, mem_uniqueAux]

theorem nodup_uniqueAux {α : Type} [DecidableEq α] :
    ∀ (l seen : List α), (uniqueAux l seen).Nodup := by
  intro l
  induction l with
  | nil => intro seen; simp [uniqueAux]
  | cons x xs ih =>
    intro seen
    by_cases hx : x ∈ seen
    · simpa [uniqueAux, if_pos hx] using ih seen
    · simp only [uniqueAux, if_neg hx]
      refine List.Nodup.cons ?_ (ih (x :: seen))
      intro hmem
      exact (mem_uniqueAux.1 hmem).2 (List.mem_cons_self x seen)

theorem nodup_unique {α : Type} [DecidableEq α] (l : List α) : (unique l).Nodup :=
  nodup_uniqueAux l []

/-! ### Basic facts about `seriesMin` and `seriesMax` -/

theorem foldl_min_spec (l : List Int) (a : Int) :
    (l.foldl min a = a ∨ l.foldl min a ∈ l) ∧ l.foldl min a ≤ a ∧
      ∀ t ∈ l, l.foldl min a ≤ t := by
  induction l generalizing a with
  | nil => simp
  | cons x xs ih =>
    obtain ⟨h1, h2, h3⟩ := ih (min a x)
    rw [List.foldl_cons]
    refine ⟨?_, le_trans h2 (min_le_left _ _), ?_⟩
    · rcases h1 with h | h
      · rcases le_total a x with hax | hax
        · left; rw [h, min_eq_left hax]
        · right; rw [h, min_eq_right hax]; exact List.mem_cons_self _ _
      · right; exact List.mem_cons_of_mem _ h
    · intro t ht
      rcases List.mem_cons.1 ht with rfl | ht
      · exact le_trans h2 (min_le_right _ _)
      · exact h3 t ht

theorem seriesMin_mem {l : List Int} (h : l ≠ []) : seriesMin l ∈ l := by
  cases l with
  | nil => exact absurd rfl h
  | cons x xs =>
    rcases (foldl_min_spec xs x).1 with h1 | h1
    · simp [seriesMin, h1]
    · exact List.mem_cons_of_mem _ (by simpa [seriesMin] using h1)

theorem seriesMin_le {l : List Int} (t : Int) (ht : t ∈ l) : seriesMin l ≤ t := by
  cases l with
  | nil => cases ht
  | cons x xs =>
    rcases List.mem_cons.1 ht with rfl | ht
    · exact (foldl_min_spec xs t).2.1
    · exact (foldl_min_spec xs x).2.2 t ht

theorem seriesMin_eq_iff {l : List Int} (h : l ≠ []) {x : Int} :
    seriesMin l = x ↔ x ∈ l ∧ ∀ t ∈ l, x ≤ t := by
  constructor
  · rintro rfl; exact ⟨seriesMin_mem h, fun t ht => seriesMin_le t ht⟩
  · rintro ⟨hx, hle⟩
    exact le_antisymm (seriesMin_le x hx) (hle _ (seriesMin_mem h))

theorem foldl_max_spec (l : List Int) (a : Int) :
    (l.foldl max a = a ∨ l.foldl max a ∈ l) ∧ a ≤ l.foldl max a ∧
      ∀ t ∈ l, t ≤ l.foldl max a := by
  induction l generalizing a with
  | nil => simp
  | cons x xs ih =>
    obtain ⟨h1, h2, h3⟩ := ih (max a x)
    rw [List.foldl_cons]
    refine ⟨?_, le_trans (le_max_left _ _) h2, ?_⟩
    · rcases h1 with h | h
      · rcases le_total a x with hax | hax
        · right; rw [h, max_eq_right hax]; exact List.mem_cons_self _ _
        · left; rw [h, max_eq_left hax]
      · right; exact List.mem_cons_of_mem _ h
    · intro t ht
      rcases List.mem_cons.1 ht with rfl | ht
      · exact le_trans (le_max_right _ _) h2
      · exact h3 t ht

theorem seriesMax_mem {l : List Int} (h : l ≠ []) : seriesMax l ∈ l := by
  cases l with
  | nil => exact absurd rfl h
  | cons x xs =>
    rcases (foldl_max_spec xs x).1 with h1 | h1
    · simp [seriesMax, h1]
    · exact List.mem_cons_of_mem _ (by simpa [seriesMax] using h1)

theorem le_seriesMax {l : List Int} (t : Int) (ht : t ∈ l) : t ≤ seriesMax l := by
  cases l with
  | nil => cases ht
  | cons x xs =>
    rcases List.mem_cons.1 ht with rfl | ht
    · exact (foldl_max_spec xs t).2.1
    · exact (foldl_max_spec xs x).2.2 t ht

theorem seriesMax_eq_iff {l : List Int} (h : l ≠ []) {x : Int} :
    seriesMax l = x ↔ x ∈ l ∧ ∀ t ∈ l, t ≤ x := by
  constructor
  · rintro rfl; exact ⟨seriesMax_mem h, fun t ht => le_seriesMax t ht⟩
  · rintro ⟨hx, hle⟩
    exact le_antisymm (hle _ (seriesMax_mem h)) (le_seriesMax x hx)

/-! ### Facts about the window partitioner -/

theorem min_stp_le {data : List Record} {r : Record} (hr : r ∈ data) :
    min_stp data ≤ r.sampletimestamp :=
  seriesMin_le _ (List.mem_map_of_mem _ hr)

theorem le_max_stp {data : List Record} {r : Record} (hr : r ∈ data) :
    r.sampletimestamp ≤ max_stp data :=
  le_seriesMax _ (List.mem_map_of_mem _ hr)

theorem min_stp_le_max_stp {data : List Record} (h : data ≠ []) :
    min_stp data ≤ max_stp data := by
  have hmap : data.map (·.sampletimestamp) ≠ [] := by
    simpa using h
  exact seriesMin_le _ (seriesMax_mem hmap)

theorem split_loop_length (data : List Record) (tw : Int) :
    ∀ (n : Nat) (m : Int), (split_loop data tw m n).length = n := by
  intro n
  induction n with
  | zero => intro m; rfl
  | succ k ih => intro m; simp [split_loop, ih]

theorem split_loop_getElem (data : List Record) (tw : Int) :
    ∀ (n : Nat) (m : Int) (i : Nat) (h : i < (split_loop data tw m n).length),
      (split_loop data tw m n).get ⟨i, h⟩ =
        data.filter (fun r => decide (m + tw * i ≤ r.sampletimestamp) &&
          decide (r.sampletimestamp ≤ m + tw * i + tw)) := by
  intro n
  induction n with
  | zero => intro m i h; simp [split_loop_length] at h
  | succ k ih =>
    intro m i h
    cases i with
    | zero =>
      show data.filter _ = _
      apply List.filter_congr
      intro r _
      have hm : m + tw * ((0 : Nat) : Int) = m := by simp
      rw [hm]
    | succ j =>
      have h' : j < (split_loop data tw (m + tw) k).length := by
        simpa [split_loop_length] using h
      have := ih (m + tw) j h'
      show (split_loop data tw (m + tw) k).get ⟨j, h'⟩ = _
      rw [this]
      apply List.filter_congr
      intro r _
      have h1 : (m + tw) + tw * (j : Int) = m + tw * ((j : Nat) + 1 : Nat) := by
        push_cast
        ring
      rw [h1]

theorem dataframe_split_eq_some {data : List Record} {tw : Int}
    (hdata : data ≠ []) (htw : tw ≠ 0) :
    dataframe_split data tw =
      some (split_loop data tw (min_stp data)
        ((max_stp data - min_stp data).tdiv tw + 1).toNat) := by
  simp [dataframe_split, hdata, htw]

/-- C3: for a non-empty record set and window width `tw > 0`, `dataframe_split`
produces exactly `⌊(max−min)/tw⌋+1` windows; window `i` holds the records with
timestamp in `[min+tw·i, min+tw·i+tw]`, so starts advance by `tw` from the
minimum and are strictly increasing, and the window bound intervals jointly
cover `[min, max]`. -/
theorem dataframe_split_count_monotone_cover
    (data : List Record) (tw : Int) (ws : List (List Record))
    (hdata : data ≠ []) (htw : 0 < tw)
    (hws : dataframe_split data tw = some ws) :
    ws.length = ((max_stp data - min_stp data) / tw).toNat + 1 ∧
    (∀ (i : Nat) (h : i < ws.length),
      ws.get ⟨i, h⟩ = data.filter (fun r =>
        decide (min_stp data + tw * i ≤ r.sampletimestamp) &&
          decide (r.sampletimestamp ≤ min_stp data + tw * i + tw))) ∧
    (∀ i j : Nat, i < j → j < ws.length →
      min_stp data + tw * i < min_stp data + tw * j) ∧
    (∀ t : Int, min_stp data ≤ t → t ≤ max_stp data →
      ∃ i : Nat, i < ws.length ∧ min_stp data + tw * i ≤ t ∧
        t ≤ min_stp data + tw * i + tw) := by
  have htw' : tw ≠ 0 := ne_of_gt htw
  have hsub : 0 ≤ max_stp data - min_stp data :=
    sub_nonneg.2 (min_stp_le_max_stp hdata)
  have hdiv : (max_stp data - min_stp data).tdiv tw =
      (max_stp data - min_stp data) / tw :=
    Int.tdiv_eq_ediv hsub (le_of_lt htw)
  have hq : 0 ≤ (max_stp data - min_stp data) / tw :=
    Int.ediv_nonneg hsub (le_of_lt htw)
  rw [dataframe_split_eq_some hdata htw'] at hws
  have hws' : ws = split_loop data tw (min_stp data)
      ((max_stp data - min_stp data).tdiv tw + 1).toNat := by
    exact (Option.some.injEq _ _ ▸ hws).symm
  subst hws'
  have hlen : (split_loop data tw (min_stp data)
      ((max_stp data - min_stp data).tdiv tw + 1).toNat).length =
      ((max_stp data - min_stp data) / tw).toNat + 1 := by
    rw [split_loop_length, hdiv]
    omega
  refine ⟨hlen, ?_, ?_, ?_⟩
  · intro i h
    exact split_loop_getElem data tw _ _ i h
  · intro i j hij hj
    have : (i : Int) < (j : Int) := by exact_mod_cast hij
    have := Int.mul_lt_mul_of_pos_left this htw
    omega
  · intro t hmn hmx
    have hq0 : 0 ≤ (t - min_stp data) / tw :=
      Int.ediv_nonneg (sub_nonneg.2 hmn) (le_of_lt htw)
    have hmod := Int.ediv_add_emod (t - min_stp data) tw
    have hr0 : 0 ≤ (t - min_stp data) % tw := Int.emod_nonneg _ htw'
    have hrlt : (t - min_stp data) % tw < tw := Int.emod_lt_of_pos _ htw
    have hqle : (t - min_stp data) / tw ≤ (max_stp data - min_stp data) / tw :=
      Int.ediv_le_ediv htw (sub_le_sub_right hmx _)
    refine ⟨((t - min_stp data) / tw).toNat, ?_, ?_, ?_⟩
    · rw [hlen]
      omega
    · rw [Int.toNat_of_nonneg hq0]
      omega
    · rw [Int.toNat_of_nonneg hq0]
      omega

/-- C4 (amended): the source never validates `tw`.  A zero width fails only
because the window-count computation itself raises (before any window is
produced); a negative width is accepted silently: `dataframe_split` returns
its list of windows, every one of which is an empty partition, so the pipeline
signals no configuration error. -/
theorem dataframe_split_tw_nonpositive
    (data : List Record) (tw : Int) (hdata : data ≠ []) (htw : tw ≤ 0) :
    (tw = 0 → dataframe_split data tw = none) ∧
    (tw < 0 → ∃ ws, dataframe_split data tw = some ws ∧ ∀ w ∈ ws, w = []) := by
  constructor
  · intro h0
    simp [dataframe_split, hdata, h0]
  · intro hneg
    refine ⟨_, dataframe_split_eq_some hdata (ne_of_lt hneg), ?_⟩
    intro w hw
    rw [List.mem_iff_getElem] at hw
    obtain ⟨i, hi, hget⟩ := hw
    have hgi := split_loop_getElem data tw _ _ i hi
    rw [List.get_eq_getElem] at hgi
    rw [← hget, hgi]
    rw [List.filter_eq_nil_iff]
    intro r hr
    have h1 : min_stp data ≤ r.sampletimestamp := min_stp_le hr
    have h2 : tw * (i : Int) ≤ 0 :=
      mul_nonpos_of_nonpos_of_nonneg htw (Int.natCast_nonneg i)
    simp only [Bool.and_eq_true, decide_eq_true_eq, not_and]
    intro _
    omega

/-- C4 counterexample: with the one-record data set below and `tw = −150`,
`dataframe_split` does not signal an error; it returns one (empty) partition,
refuting "every `tw ≤ 0` is rejected before any window is processed". -/
def sample_record : Record :=
  { user_id := 0, latitude := 0, longitude := 0, sampletimestamp := 0,
    accuracy := 0, comm_radius := 0 }

/-- C4 counterexample: the pipeline does not reject `tw = −150 ≤ 0`:
`dataframe_split` returns a partition list (one empty window) instead of
signalling a configuration error. -/
theorem dataframe_split_negative_tw_unrejected :
    dataframe_split [sample_record] (-150) = some [[]] ∧
      dataframe_split [sample_record] (-150) ≠ none := by
  constructor <;> decide

/-- Witness for the amended C4 at a concrete input. -/
theorem dataframe_split_tw_nonpositive_witness :
    ∃ ws, dataframe_split [sample_record] (-7) = some ws ∧ ∀ w ∈ ws, w = [] :=
  (dataframe_split_tw_nonpositive [sample_record] (-7)
    (List.cons_ne_nil _ _) (by decide)).2 (by decide)

/-- A concrete record of user 0 for witnesses. -/
def rec0 : Record :=
  { user_id := 0, latitude := 0, longitude := 0, sampletimestamp := 0,
    accuracy := 0, comm_radius := 0 }

/-- A concrete record of user 1, same position as `rec0`, timestamp 310. -/
def rec1 : Record :=
  { user_id := 1, latitude := 0, longitude := 0, sampletimestamp := 310,
    accuracy := 0, comm_radius := 0 }

/-- A small concrete data set for witnesses: two users, timestamps 0 and 310. -/
def sample_data : List Record := [rec0, rec1]

/-- C3 witness: on `sample_data` with `tw = 100`, the split succeeds and
produces `⌊310/100⌋ + 1 = 4` windows. -/
theorem dataframe_split_count_monotone_cover_witness :
    ∃ ws, dataframe_split sample_data 100 = some ws ∧ ws.length = 4 := by
  refine ⟨_, dataframe_split_eq_some (List.cons_ne_nil _ _) (by decide), ?_⟩
  rw [(dataframe_split_count_monotone_cover sample_data 100 _
    (List.cons_ne_nil _ _) (by decide)
    (dataframe_split_eq_some (List.cons_ne_nil _ _) (by decide))).1]
  decide

/-- C6: both window bounds are inclusive (`>= min_stp` and `<= min_stp + tw`
at Colocations.py:154-155), so a record whose timestamp equals the interior
boundary `min + (i+1)·tw` — the upper bound of window `i` and the start of
window `i+1` — is a member of both consecutive partitions, and its overlaps
can therefore be reported in both windows. -/
theorem boundary_record_in_both_windows
    (data : List Record) (tw : Int) (ws : List (List Record)) (r : Record)
    (i : Nat) (htw : 0 < tw) (hws : dataframe_split data tw = some ws)
    (hr : r ∈ data)
    (hts : r.sampletimestamp = min_stp data + tw * ((i + 1 : Nat) : Int))
    (hlt : i + 1 < ws.length) :
    r ∈ ws.get ⟨i, Nat.lt_of_succ_lt hlt⟩ ∧ r ∈ ws.get ⟨i + 1, hlt⟩ := by
  have hdata : data ≠ [] := by rintro rfl; cases hr
  have htw' : tw ≠ 0 := ne_of_gt htw
  rw [dataframe_split_eq_some hdata htw'] at hws
  have hws' : ws = split_loop data tw (min_stp data)
      ((max_stp data - min_stp data).tdiv tw + 1).toNat :=
    (Option.some.injEq _ _ ▸ hws).symm
  subst hws'
  have hcast : ((i + 1 : Nat) : Int) = (i : Int) + 1 := by push_cast; ring
  have hexp : tw * ((i : Int) + 1) = tw * (i : Int) + tw := by ring
  rw [hcast, hexp] at hts
  constructor
  · rw [split_loop_getElem]
    rw [List.mem_filter]
    refine ⟨hr, ?_⟩
    simp only [Bool.and_eq_true, decide_eq_true_eq]
    omega
  · rw [split_loop_getElem]
    rw [List.mem_filter]
    refine ⟨hr, ?_⟩
    simp only [Bool.and_eq_true, decide_eq_true_eq]
    rw [hcast, hexp]
    omega

/-- A record sitting exactly on an interior window boundary (t = 150 with
`tw = 150` and minimum timestamp 0). -/
def boundary_rec : Record :=
  { user_id := 1, latitude := 0, longitude := 0, sampletimestamp := 150,
    accuracy := 0, comm_radius := 0 }

/-- Data whose timestamps are 0, 150, 300: with `tw = 150` the middle record
lies on the boundary between the first two windows. -/
def boundary_data : List Record :=
  [{ user_id := 0, latitude := 0, longitude := 0, sampletimestamp := 0,
     accuracy := 0, comm_radius := 0 },
   boundary_rec,
   { user_id := 2, latitude := 0, longitude := 0, sampletimestamp := 300,
     accuracy := 0, comm_radius := 0 }]

/-- C6 witness: the boundary record is in both window 0 and window 1. -/
theorem boundary_record_in_both_windows_witness :
    ∃ ws, dataframe_split boundary_data 150 = some ws ∧
      ∃ h : 0 + 1 < ws.length,
        boundary_rec ∈ ws.get ⟨0, Nat.lt_of_succ_lt h⟩ ∧
          boundary_rec ∈ ws.get ⟨0 + 1, h⟩ := by
  refine ⟨_, dataframe_split_eq_some (List.cons_ne_nil _ _) (by decide), ?_⟩
  have h : 0 + 1 < (split_loop boundary_data 150 (min_stp boundary_data)
      ((max_stp boundary_data - min_stp boundary_data).tdiv 150 + 1).toNat).length := by
    rw [split_loop_length]
    decide
  exact ⟨h, boundary_record_in_both_windows boundary_data 150 _ boundary_rec 0
    (by decide)
    (dataframe_split_eq_some (List.cons_ne_nil _ _) (by decide))
    (List.mem_cons_of_mem _ (List.mem_cons_self _ _))
    (by decide) h⟩

/-! ### Facts about the proximity detector -/

theorem area_intersects_symm (a b : Record) :
    area_intersects a b = area_intersects b a := by
  simp only [area_intersects, decide_eq_decide]
  rw [show (a.latitude - b.latitude) ^ 2 = (b.latitude - a.latitude) ^ 2 from by ring,
    show (a.longitude - b.longitude) ^ 2 = (b.longitude - a.longitude) ^ 2 from by ring,
    add_comm a.comm_radius]

theorem area_intersects_same_center {a b : Record}
    (h1 : a.latitude = b.latitude) (h2 : a.longitude = b.longitude) :
    area_intersects a b = true := by
  simp only [area_intersects, h1, h2, sub_self, decide_eq_true_eq]
  have h0 : ((0 : ℚ)) ^ 2 + (0 : ℚ) ^ 2 = 0 := by norm_num
  rw [h0]
  positivity

theorem mem_user_records {p : List Record} {u : Nat} {r : Record} :
    r ∈ user_records p u ↔ r ∈ p ∧ r.user_id = u := by
  simp [user_records]

theorem mem_subject_pairs {p : List Record} {u : Nat} {others : List Nat}
    {x y : Record} :
    (x, y) ∈ subject_pairs p u others ↔
      x ∈ p ∧ x.user_id = u ∧ y ∈ p ∧ y.user_id ∈ others ∧
        area_intersects x y = true := by
  simp only [subject_pairs, List.mem_flatMap, List.mem_map, List.mem_filter]
  constructor
  · rintro ⟨i, hi, usr, husr, j, ⟨hj, hint⟩, heq⟩
    obtain ⟨rfl, rfl⟩ := Prod.mk.injEq .. ▸ heq
    obtain ⟨hip, hiu⟩ := mem_user_records.1 hi
    obtain ⟨hjp, hju⟩ := mem_user_records.1 hj
    exact ⟨hip, hiu, hjp, hju ▸ husr, hint⟩
  · rintro ⟨hxp, hxu, hyp, hyu, hint⟩
    exact ⟨x, mem_user_records.2 ⟨hxp, hxu⟩, y.user_id, hyu,
      y, ⟨mem_user_records.2 ⟨hyp, rfl⟩, hint⟩, rfl⟩

theorem mem_pairs_loop_spec {p : List Record} {x y : Record} :
    ∀ {us : List Nat}, (x, y) ∈ pairs_loop p us →
      x ∈ p ∧ y ∈ p ∧ area_intersects x y = true ∧
        x.user_id ∈ us ∧ y.user_id ∈ us ∧
        (us.Nodup → List.indexOf x.user_id us < List.indexOf y.user_id us) := by
  intro us
  induction us with
  | nil => intro h; cases h
  | cons u rest ih =>
    intro h
    rcases List.mem_append.1 h with h | h
    · obtain ⟨hxp, hxu, hyp, hyu, hint⟩ := mem_subject_pairs.1 h
      refine ⟨hxp, hyp, hint, hxu ▸ List.mem_cons_self _ _,
        List.mem_cons_of_mem _ hyu, ?_⟩
      intro hnd
      have hu : u ∉ rest := (List.nodup_cons.1 hnd).1
      have hyne : y.user_id ≠ u := fun hEq => hu (hEq ▸ hyu)
      rw [hxu, List.indexOf_cons_self,
        List.indexOf_cons_ne _ (fun hEq => hyne hEq.symm)]
      exact Nat.succ_pos _
    · obtain ⟨hxp, hyp, hint, hxu, hyu, hord⟩ := ih h
      refine ⟨hxp, hyp, hint, List.mem_cons_of_mem _ hxu,
        List.mem_cons_of_mem _ hyu, ?_⟩
      intro hnd
      have hu : u ∉ rest := (List.nodup_cons.1 hnd).1
      have hxne : u ≠ x.user_id := fun hEq => hu (hEq ▸ hxu)
      have hyne : u ≠ y.user_id := fun hEq => hu (hEq ▸ hyu)
      rw [List.indexOf_cons_ne _ hxne, List.indexOf_cons_ne _ hyne]
      exact Nat.succ_lt_succ (hord (List.nodup_cons.1 hnd).2)

theorem pairs_loop_complete {p : List Record} {x y : Record} :
    ∀ {us : List Nat}, x ∈ p → y ∈ p → x.user_id ∈ us → y.user_id ∈ us →
      x.user_id ≠ y.user_id → area_intersects x y = true →
      (x, y) ∈ pairs_loop p us ∨ (y, x) ∈ pairs_loop p us := by
  intro us
  induction us with
  | nil => intro _ _ hx; cases hx
  | cons u rest ih =>
    intro hxp hyp hxu hyu hne hint
    by_cases hx : x.user_id = u
    · have hy : y.user_id ∈ rest := by
        rcases List.mem_cons.1 hyu with h | h
        · exact absurd (hx.trans h.symm) hne
        · exact h
      exact Or.inl (List.mem_append_left _
        (mem_subject_pairs.2 ⟨hxp, hx, hyp, hy, hint⟩))
    · by_cases hy : y.user_id = u
      · have hx' : x.user_id ∈ rest := by
          rcases List.mem_cons.1 hxu with h | h
          · exact absurd h hx
          · exact h
        refine Or.inr (List.mem_append_left _
          (mem_subject_pairs.2 ⟨hyp, hy, hxp, hx', ?_⟩))
        rw [← area_intersects_symm]
        exact hint
      · have hx' : x.user_id ∈ rest := by
          rcases List.mem_cons.1 hxu with h | h
          · exact absurd h hx
          · exact h
        have hy' : y.user_id ∈ rest := by
          rcases List.mem_cons.1 hyu with h | h
          · exact absurd h hy
          · exact h
        rcases ih hxp hyp hx' hy' hne hint with h | h
        · exact Or.inl (List.mem_append_right _ h)
        · exact Or.inr (List.mem_append_right _ h)

/-- C2: a cross pair of records of two distinct users in a window produces an
overlap entry (in exactly the orientation the loops visit it) if and only if
the squared distance of the centers is at most the square of the sum of the
two communication radii — an inclusive boundary, so exact tangency counts;
strictly larger distance produces nothing. -/
theorem overlap_iff_center_distance_le_radius_sum
    (p : List Record) (a b : Record) (ha : a ∈ p) (hb : b ∈ p)
    (hab : a.user_id ≠ b.user_id) :
    (((a, b) ∈ overlap_pairs p ∨ (b, a) ∈ overlap_pairs p) ↔
      (a.latitude - b.latitude) ^ 2 + (a.longitude - b.longitude) ^ 2 ≤
        (a.comm_radius + b.comm_radius) ^ 2) ∧
    (∀ ij ∈ overlap_pairs p, mkOverlap ij ∈ window_intersections p) := by
  refine ⟨⟨?_, ?_⟩, fun ij hij => List.mem_map_of_mem _ hij⟩
  · rintro (h | h)
    · exact of_decide_eq_true (mem_pairs_loop_spec h).2.2.1
    · have hsym := (mem_pairs_loop_spec h).2.2.1
      rw [area_intersects_symm b a] at hsym
      exact of_decide_eq_true hsym
  · intro hdist
    have hma : a.user_id ∈ unique (p.map (·.user_id)) :=
      mem_unique.2 (List.mem_map_of_mem _ ha)
    have hmb : b.user_id ∈ unique (p.map (·.user_id)) :=
      mem_unique.2 (List.mem_map_of_mem _ hb)
    exact pairs_loop_complete ha hb hma hmb hab (decide_eq_true hdist)

/-- Every overlap row of a window is oriented by user-discovery order:
`uid_1` appears strictly earlier than `uid_2` in the window's user list. -/
theorem window_orientation (p : List Record) :
    ∀ e ∈ window_intersections p,
      List.indexOf e.uid_1 (unique (p.map (·.user_id))) <
        List.indexOf e.uid_2 (unique (p.map (·.user_id))) := by
  intro e he
  obtain ⟨⟨x, y⟩, hmem, rfl⟩ := List.mem_map.1 he
  exact (mem_pairs_loop_spec hmem).2.2.2.2.2 (nodup_unique _)

/-- Two overlap rows of one window with the same unordered user pair carry
the same ordered `(uid_1, uid_2)` key. -/
theorem window_orientation_unordered (p : List Record) :
    ∀ e ∈ window_intersections p, ∀ e' ∈ window_intersections p,
      ((e.uid_1 = e'.uid_1 ∧ e.uid_2 = e'.uid_2) ∨
        (e.uid_1 = e'.uid_2 ∧ e.uid_2 = e'.uid_1)) →
      e.uid_1 = e'.uid_1 ∧ e.uid_2 = e'.uid_2 := by
  intro e he e' he' hcase
  rcases hcase with h | h
  · exact h
  · obtain ⟨h1, h2⟩ := h
    have o1 := window_orientation p e he
    have o2 := window_orientation p e' he'
    rw [h1, h2] at o1
    omega

/-- C9: every overlap row of a window is oriented by user-discovery order —
`uid_1` appears strictly earlier than `uid_2` in the window's `unique` user
list — so all rows of one unordered user pair share a single orientation, and
grouping rows by the ordered `(uid_1, uid_2)` key is grouping by unordered
pair identity. -/
theorem overlap_orientation_consistent (p : List Record) :
    (∀ e ∈ window_intersections p,
      List.indexOf e.uid_1 (unique (p.map (·.user_id))) <
        List.indexOf e.uid_2 (unique (p.map (·.user_id)))) ∧
    (∀ e ∈ window_intersections p, ∀ e' ∈ window_intersections p,
      ((e.uid_1 = e'.uid_1 ∧ e.uid_2 = e'.uid_2) ∨
        (e.uid_1 = e'.uid_2 ∧ e.uid_2 = e'.uid_1)) →
      e.uid_1 = e'.uid_1 ∧ e.uid_2 = e'.uid_2) :=
  ⟨window_orientation p, window_orientation_unordered p⟩

/-- C7: no self-pairs — every overlap row has `uid_1 ≠ uid_2`, and every
co-location row generated from a window's overlap rows has
`node_1 ≠ node_2`. -/
theorem no_self_pairs :
    (∀ (p : List Record), ∀ e ∈ window_intersections p, e.uid_1 ≠ e.uid_2) ∧
    (∀ (p : List Record),
      ∀ ev ∈ window_colocations (window_intersections p),
        ev.node_1 ≠ ev.node_2) := by
  have h1 : ∀ (p : List Record), ∀ e ∈ window_intersections p,
      e.uid_1 ≠ e.uid_2 := by
    intro p e he hEq
    have := window_orientation p e he
    rw [hEq] at this
    exact lt_irrefl _ this
  refine ⟨h1, ?_⟩
  intro p ev hev
  obtain ⟨c, hc, hev⟩ := List.mem_flatMap.1 hev
  obtain ⟨e, he, hce⟩ := List.mem_map.1 (mem_unique.1 hc)
  have hne : c.1 ≠ c.2 := by
    rw [← hce]
    exact h1 p e he
  simp only [couple_colocations, List.mem_cons, List.mem_singleton] at hev
  rcases hev with rfl | rfl | rfl | rfl | h
  · exact hne
  · exact hne
  · exact hne.symm
  · exact hne.symm
  · cases h

/-- The records of `sample_data` share a center, so their cross pair is
accepted by the intersection loops. -/
theorem sample_pair_mem : (rec0, rec1) ∈ overlap_pairs sample_data := by
  have husers : unique (sample_data.map (·.user_id)) = [0, 1] := by decide
  show (rec0, rec1) ∈ pairs_loop sample_data (unique (sample_data.map (·.user_id)))
  rw [husers]
  simp only [pairs_loop]
  apply List.mem_append_left
  exact mem_subject_pairs.2 ⟨List.mem_cons_self _ _, rfl,
    List.mem_cons_of_mem _ (List.mem_cons_self _ _), List.mem_cons_self _ _,
    area_intersects_same_center rfl rfl⟩

/-- Witness for C2 at the concrete pair `rec0`, `rec1`. -/
theorem overlap_iff_center_distance_le_radius_sum_witness :
    ((rec0, rec1) ∈ overlap_pairs sample_data ∨
        (rec1, rec0) ∈ overlap_pairs sample_data) ↔
      (rec0.latitude - rec1.latitude) ^ 2 +
          (rec0.longitude - rec1.longitude) ^ 2 ≤
        (rec0.comm_radius + rec1.comm_radius) ^ 2 :=
  (overlap_iff_center_distance_le_radius_sum sample_data rec0 rec1
    (List.mem_cons_self _ _) (List.mem_cons_of_mem _ (List.mem_cons_self _ _))
    (by decide)).1

/-- Witness for C9 at the concrete overlap row of `sample_data`. -/
theorem overlap_orientation_consistent_witness :
    List.indexOf (mkOverlap (rec0, rec1)).uid_1
        (unique (sample_data.map (·.user_id))) <
      List.indexOf (mkOverlap (rec0, rec1)).uid_2
        (unique (sample_data.map (·.user_id))) :=
  (overlap_orientation_consistent sample_data).1 _
    (List.mem_map_of_mem _ sample_pair_mem)

/-- Witness for C7: the concrete overlap row and a co-location row generated
from it both relate two distinct users. -/
theorem no_self_pairs_witness :
    (mkOverlap (rec0, rec1)).uid_1 ≠ (mkOverlap (rec0, rec1)).uid_2 ∧
    (⟨0, 1, seriesMin (couple_times (window_intersections sample_data) 0 1),
        Direction.up⟩ : ColocationEvent).node_1 ≠
      (⟨0, 1, seriesMin (couple_times (window_intersections sample_data) 0 1),
        Direction.up⟩ : ColocationEvent).node_2 := by
  have hdf : mkOverlap (rec0, rec1) ∈ window_intersections sample_data :=
    List.mem_map_of_mem _ sample_pair_mem
  have hc : ((0 : Nat), (1 : Nat)) ∈ users_couples (window_intersections sample_data) :=
    mem_unique.2 (List.mem_map.2 ⟨mkOverlap (rec0, rec1), hdf, rfl⟩)
  refine ⟨no_self_pairs.1 sample_data _ hdf, ?_⟩
  exact no_self_pairs.2 sample_data _
    (List.mem_flatMap.2 ⟨(0, 1), hc, List.mem_cons_self _ _⟩)

/-! ### Facts about the aggregator -/

theorem seriesMin_extend {l l' : List Int} (hne : l ≠ [])
    (hsub : ∀ t ∈ l, t ∈ l') (hsup : ∀ t ∈ l', seriesMin l ≤ t) :
    seriesMin l' = seriesMin l := by
  have hl' : l' ≠ [] :=
    List.ne_nil_of_mem (hsub _ (seriesMin_mem hne))
  rw [seriesMin_eq_iff hl']
  exact ⟨hsub _ (seriesMin_mem hne), hsup⟩

theorem seriesMax_extend {l l' : List Int} (hne : l ≠ [])
    (hsub : ∀ t ∈ l, t ∈ l') (hsup : ∀ t ∈ l', t ≤ seriesMax l) :
    seriesMax l' = seriesMax l := by
  have hl' : l' ≠ [] :=
    List.ne_nil_of_mem (hsub _ (seriesMax_mem hne))
  rw [seriesMax_eq_iff hl']
  exact ⟨hsub _ (seriesMax_mem hne), hsup⟩

/-- C8: appending an overlap row that is either a duplicate of an existing row
or a row of the couple whose two timestamps lie inside the couple's existing
`[min, max]` range does not change the four co-location rows emitted for any
couple — the aggregator only reads the min and max of the couple's collected
timestamps. -/
theorem couple_colocations_multiplicity_insensitive
    (df : List OverlapEvent) (c0 c1 : Nat) (e : OverlapEvent)
    (h : e ∈ df ∨
      (e.uid_1 = c0 ∧ e.uid_2 = c1 ∧ couple_rows df c0 c1 ≠ [] ∧
        seriesMin (couple_times df c0 c1) ≤ e.timestamp_uid_1 ∧
        e.timestamp_uid_1 ≤ seriesMax (couple_times df c0 c1) ∧
        seriesMin (couple_times df c0 c1) ≤ e.timestamp_uid_2 ∧
        e.timestamp_uid_2 ≤ seriesMax (couple_times df c0 c1))) :
    couple_colocations (df ++ [e]) c0 c1 = couple_colocations df c0 c1 := by
  by_cases hm : e.uid_1 = c0 ∧ e.uid_2 = c1
  · have hrows : couple_rows (df ++ [e]) c0 c1 = couple_rows df c0 c1 ++ [e] := by
      simp [couple_rows, List.filter_append, hm.1, hm.2]
    obtain ⟨hne, hb1, hb2, hb3, hb4⟩ :
        couple_rows df c0 c1 ≠ [] ∧
          seriesMin (couple_times df c0 c1) ≤ e.timestamp_uid_1 ∧
          e.timestamp_uid_1 ≤ seriesMax (couple_times df c0 c1) ∧
          seriesMin (couple_times df c0 c1) ≤ e.timestamp_uid_2 ∧
          e.timestamp_uid_2 ≤ seriesMax (couple_times df c0 c1) := by
      rcases h with he | ⟨_, _, hne, hb1, hb2, hb3, hb4⟩
      · have hrow : e ∈ couple_rows df c0 c1 :=
          List.mem_filter.2 ⟨he, by simp [hm.1, hm.2]⟩
        have ht1 : e.timestamp_uid_1 ∈ couple_times df c0 c1 :=
          List.mem_append_left _ (List.mem_map_of_mem _ hrow)
        have ht2 : e.timestamp_uid_2 ∈ couple_times df c0 c1 :=
          List.mem_append_right _ (List.mem_map_of_mem _ hrow)
        exact ⟨List.ne_nil_of_mem hrow, seriesMin_le _ ht1, le_seriesMax _ ht1,
          seriesMin_le _ ht2, le_seriesMax _ ht2⟩
      · exact ⟨hne, hb1, hb2, hb3, hb4⟩
    have htne : couple_times df c0 c1 ≠ [] := by
      obtain ⟨r, hr⟩ := List.exists_mem_of_ne_nil _ hne
      exact List.ne_nil_of_mem
        (List.mem_append_left _ (List.mem_map_of_mem _ hr))
    have htimes : couple_times (df ++ [e]) c0 c1 =
        ((couple_rows df c0 c1).map (·.timestamp_uid_1) ++ [e.timestamp_uid_1]) ++
          ((couple_rows df c0 c1).map (·.timestamp_uid_2) ++ [e.timestamp_uid_2]) := by
      simp [couple_times, hrows]
    have hmem : ∀ t ∈ couple_times df c0 c1, t ∈ couple_times (df ++ [e]) c0 c1 := by
      intro t ht
      rw [htimes]
      rcases List.mem_append.1 ht with h1 | h1
      · exact List.mem_append_left _ (List.mem_append_left _ h1)
      · exact List.mem_append_right _ (List.mem_append_left _ h1)
    have hbound : ∀ t ∈ couple_times (df ++ [e]) c0 c1,
        seriesMin (couple_times df c0 c1) ≤ t ∧
          t ≤ seriesMax (couple_times df c0 c1) := by
      intro t ht
      rw [htimes] at ht
      simp only [List.mem_append, List.mem_singleton] at ht
      rcases ht with (h1 | rfl) | (h1 | rfl)
      · have : t ∈ couple_times df c0 c1 := List.mem_append_left _ h1
        exact ⟨seriesMin_le _ this, le_seriesMax _ this⟩
      · exact ⟨hb1, hb2⟩
      · have : t ∈ couple_times df c0 c1 := List.mem_append_right _ h1
        exact ⟨seriesMin_le _ this, le_seriesMax _ this⟩
      · exact ⟨hb3, hb4⟩
    have hmin : seriesMin (couple_times (df ++ [e]) c0 c1) =
        seriesMin (couple_times df c0 c1) :=
      seriesMin_extend htne hmem (fun t ht => (hbound t ht).1)
    have hmax : seriesMax (couple_times (df ++ [e]) c0 c1) =
        seriesMax (couple_times df c0 c1) :=
      seriesMax_extend htne hmem (fun t ht => (hbound t ht).2)
    simp only [couple_colocations]
    rw [hmin, hmax]
  · have hsingle : couple_rows [e] c0 c1 = [] := by
      rw [couple_rows, List.filter_eq_nil_iff]
      intro a ha
      rw [List.mem_singleton] at ha
      subst ha
      simp only [Bool.and_eq_true, decide_eq_true_eq, not_and]
      intro h1 h2
      exact hm ⟨h1, h2⟩
    have hrows : couple_rows (df ++ [e]) c0 c1 = couple_rows df c0 c1 := by
      show List.filter _ (df ++ [e]) = _
      rw [List.filter_append]
      rw [show List.filter _ [e] = couple_rows [e] c0 c1 from rfl, hsingle,
        List.append_nil]
      rfl
    have htimes : couple_times (df ++ [e]) c0 c1 = couple_times df c0 c1 := by
      simp [couple_times, hrows]
    simp only [couple_colocations]
    rw [htimes]

/-- A concrete overlap row for witnesses. -/
def sample_event : OverlapEvent := ⟨0, 5, 1, 9⟩

/-- Witness for C8: duplicating the only overlap row of a window changes
nothing in the couple's four co-location rows. -/
theorem couple_colocations_multiplicity_insensitive_witness :
    couple_colocations ([sample_event] ++ [sample_event]) 0 1 =
      couple_colocations [sample_event] 0 1 :=
  couple_colocations_multiplicity_insensitive [sample_event] 0 1 sample_event
    (Or.inl (List.mem_cons_self _ _))

theorem flatMap_eq_single {α β : Type} {cs : List α} {g : α → List β} {c : α}
    (hnd : cs.Nodup) (hc : c ∈ cs) (hnil : ∀ c' ∈ cs, c' ≠ c → g c' = []) :
    cs.flatMap g = g c := by
  induction cs with
  | nil => cases hc
  | cons x rest ih =>
    rw [List.flatMap_cons]
    obtain ⟨hx, hrest⟩ := List.nodup_cons.1 hnd
    by_cases hxc : x = c
    · subst hxc
      have hrnil : rest.flatMap g = [] := by
        rw [List.flatMap_eq_nil_iff]
        intro y hy
        exact hnil y (List.mem_cons_of_mem _ hy) (fun hEq => hx (hEq ▸ hy))
      rw [hrnil, List.append_nil]
    · have hgx : g x = [] := hnil x (List.mem_cons_self _ _) hxc
      rw [hgx, List.nil_append]
      have hc' : c ∈ rest := by
        rcases List.mem_cons.1 hc with h | h
        · exact absurd h.symm hxc
        · exact h
      exact ih hrest hc' (fun c' h hne => hnil c' (List.mem_cons_of_mem _ h) hne)

/-- The membership of a row's couple in `users_couples`. -/
theorem couple_mem_users_couples {df : List OverlapEvent} {e : OverlapEvent}
    (he : e ∈ df) : (e.uid_1, e.uid_2) ∈ users_couples df :=
  mem_unique.2 (List.mem_map.2 ⟨e, he, rfl⟩)

/-- Every couple collected by `users_couples` is the `(uid_1, uid_2)` of some
row. -/
theorem users_couples_sound {df : List OverlapEvent} {c : Nat × Nat}
    (hc : c ∈ users_couples df) : ∃ e ∈ df, (e.uid_1, e.uid_2) = c :=
  List.mem_map.1 (mem_unique.1 hc)

/-- C1: per window, the unordered pair of any overlap row receives exactly the
four co-location rows `(a,b,min,up)`, `(a,b,max,down)`, `(b,a,min,up)`,
`(b,a,max,down)` — nothing else in the window's output mentions that pair —
where `min`/`max` are genuinely the least and greatest of the timestamps
contributed by both sides of the pair's rows, so `up ≤ down` holds in both
orientations. -/
theorem colocation_four_events_per_pair
    (p : List Record) (e₀ : OverlapEvent)
    (he : e₀ ∈ window_intersections p) :
    ((window_colocations (window_intersections p)).filter
        (fun ev => decide ((ev.node_1 = e₀.uid_1 ∧ ev.node_2 = e₀.uid_2) ∨
          (ev.node_1 = e₀.uid_2 ∧ ev.node_2 = e₀.uid_1))) =
      [⟨e₀.uid_1, e₀.uid_2,
          seriesMin (couple_times (window_intersections p) e₀.uid_1 e₀.uid_2),
          Direction.up⟩,
       ⟨e₀.uid_1, e₀.uid_2,
          seriesMax (couple_times (window_intersections p) e₀.uid_1 e₀.uid_2),
          Direction.down⟩,
       ⟨e₀.uid_2, e₀.uid_1,
          seriesMin (couple_times (window_intersections p) e₀.uid_1 e₀.uid_2),
          Direction.up⟩,
       ⟨e₀.uid_2, e₀.uid_1,
          seriesMax (couple_times (window_intersections p) e₀.uid_1 e₀.uid_2),
          Direction.down⟩]) ∧
    seriesMin (couple_times (window_intersections p) e₀.uid_1 e₀.uid_2) ≤
      seriesMax (couple_times (window_intersections p) e₀.uid_1 e₀.uid_2) ∧
    seriesMin (couple_times (window_intersections p) e₀.uid_1 e₀.uid_2) ∈
      couple_times (window_intersections p) e₀.uid_1 e₀.uid_2 ∧
    seriesMax (couple_times (window_intersections p) e₀.uid_1 e₀.uid_2) ∈
      couple_times (window_intersections p) e₀.uid_1 e₀.uid_2 ∧
    (∀ t ∈ couple_times (window_intersections p) e₀.uid_1 e₀.uid_2,
      seriesMin (couple_times (window_intersections p) e₀.uid_1 e₀.uid_2) ≤ t ∧
        t ≤ seriesMax (couple_times (window_intersections p) e₀.uid_1 e₀.uid_2)) := by
  have hdf : e₀ ∈ window_intersections p := he
  have hrow : e₀ ∈ couple_rows (window_intersections p) e₀.uid_1 e₀.uid_2 :=
    List.mem_filter.2 ⟨hdf, by simp⟩
  have htne : couple_times (window_intersections p) e₀.uid_1 e₀.uid_2 ≠ [] :=
    List.ne_nil_of_mem (List.mem_append_left _ (List.mem_map_of_mem _ hrow))
  refine ⟨?_, seriesMin_le _ (seriesMax_mem htne), seriesMin_mem htne,
    seriesMax_mem htne,
    fun t ht => ⟨seriesMin_le _ ht, le_seriesMax _ ht⟩⟩
  rw [window_colocations, List.filter_flatMap]
  have hnodup : (users_couples (window_intersections p)).Nodup := nodup_unique _
  have hside : ∀ c' ∈ users_couples (window_intersections p),
      c' ≠ (e₀.uid_1, e₀.uid_2) →
      List.filter
        (fun ev => decide ((ev.node_1 = e₀.uid_1 ∧ ev.node_2 = e₀.uid_2) ∨
          (ev.node_1 = e₀.uid_2 ∧ ev.node_2 = e₀.uid_1)))
        (couple_colocations (window_intersections p) c'.1 c'.2) = [] := by
    intro c hc hne
    obtain ⟨ec, hec, hcEq⟩ := users_couples_sound hc
    rw [List.filter_eq_nil_iff]
    intro ev hev
    simp only [couple_colocations, List.mem_cons, List.mem_singleton] at hev
    have hcases : (ev.node_1 = c.1 ∧ ev.node_2 = c.2) ∨
        (ev.node_1 = c.2 ∧ ev.node_2 = c.1) := by
      rcases hev with rfl | rfl | rfl | rfl | hfalse
      · exact Or.inl ⟨rfl, rfl⟩
      · exact Or.inl ⟨rfl, rfl⟩
      · exact Or.inr ⟨rfl, rfl⟩
      · exact Or.inr ⟨rfl, rfl⟩
      · cases hfalse
    simp only [decide_eq_true_eq, Bool.not_eq_true]
    intro hmatch
    have hcab : c = (e₀.uid_1, e₀.uid_2) := by
      have hc1 : ec.uid_1 = c.1 := by rw [← hcEq]
      have hc2 : ec.uid_2 = c.2 := by rw [← hcEq]
      have hconsist := window_orientation_unordered p ec hec e₀ hdf
      rcases hcases with ⟨h1, h2⟩ | ⟨h1, h2⟩ <;>
        rcases hmatch with ⟨m1, m2⟩ | ⟨m1, m2⟩
      · obtain ⟨q1, q2⟩ := hconsist (Or.inl ⟨by omega, by omega⟩)
        exact Prod.ext (by omega) (by omega)
      · obtain ⟨q1, q2⟩ := hconsist (Or.inr ⟨by omega, by omega⟩)
        exact Prod.ext (by omega) (by omega)
      · obtain ⟨q1, q2⟩ := hconsist (Or.inr ⟨by omega, by omega⟩)
        exact Prod.ext (by omega) (by omega)
      · obtain ⟨q1, q2⟩ := hconsist (Or.inl ⟨by omega, by omega⟩)
        exact Prod.ext (by omega) (by omega)
    exact hne hcab
  rw [flatMap_eq_single hnodup (couple_mem_users_couples hdf) hside]
  show List.filter _
      (couple_colocations (window_intersections p) e₀.uid_1 e₀.uid_2) = _
  have hall : List.filter
      (fun ev => decide ((ev.node_1 = e₀.uid_1 ∧ ev.node_2 = e₀.uid_2) ∨
        (ev.node_1 = e₀.uid_2 ∧ ev.node_2 = e₀.uid_1)))
      (couple_colocations (window_intersections p) e₀.uid_1 e₀.uid_2) =
      couple_colocations (window_intersections p) e₀.uid_1 e₀.uid_2 := by
    rw [List.filter_eq_self]
    intro ev hev
    simp only [couple_colocations, List.mem_cons, List.mem_singleton] at hev
    rcases hev with rfl | rfl | rfl | rfl | hfalse
    · simp
    · simp
    · simp
    · simp
    · cases hfalse
  rw [hall]
  rfl

/-- Witness for C1 at the single-overlap window of `sample_data`. -/
theorem colocation_four_events_per_pair_witness :
    seriesMin (couple_times (window_intersections sample_data)
        (mkOverlap (rec0, rec1)).uid_1 (mkOverlap (rec0, rec1)).uid_2) ≤
      seriesMax (couple_times (window_intersections sample_data)
        (mkOverlap (rec0, rec1)).uid_1 (mkOverlap (rec0, rec1)).uid_2) :=
  (colocation_four_events_per_pair sample_data _
    (List.mem_map_of_mem _ sample_pair_mem)).2.1

/-! ### Facts about `users_mapping` -/

theorem uniqueAux_map {α β : Type} [DecidableEq α] [DecidableEq β] (f : α → β) :
    ∀ (l seen : List α),
      (∀ a, a ∈ l → ∀ b, (b ∈ l ∨ b ∈ seen) → f a = f b → a = b) →
      uniqueAux (l.map f) (seen.map f) = (uniqueAux l seen).map f := by
  intro l
  induction l with
  | nil => intro seen _; rfl
  | cons x xs ih =>
    intro seen hinj
    have hmem : f x ∈ seen.map f ↔ x ∈ seen := by
      constructor
      · intro hm
        obtain ⟨b, hb, hfb⟩ := List.mem_map.1 hm
        have : x = b := hinj x (List.mem_cons_self _ _) b (Or.inr hb) hfb.symm
        exact this ▸ hb
      · exact List.mem_map_of_mem f
    by_cases hx : x ∈ seen
    · have hfx : f x ∈ seen.map f := hmem.2 hx
      show uniqueAux (f x :: xs.map f) (seen.map f) = _
      rw [show uniqueAux (f x :: xs.map f) (seen.map f) =
        uniqueAux (xs.map f) (seen.map f) from by simp [uniqueAux, hfx]]
      rw [show uniqueAux (x :: xs) seen = uniqueAux xs seen from by
        simp [uniqueAux, hx]]
      exact ih seen (fun a ha b hb => hinj a (List.mem_cons_of_mem _ ha) b
        (hb.imp (List.mem_cons_of_mem _) id))
    · have hfx : f x ∉ seen.map f := fun hm => hx (hmem.1 hm)
      show uniqueAux (f x :: xs.map f) (seen.map f) = _
      rw [show uniqueAux (f x :: xs.map f) (seen.map f) =
        f x :: uniqueAux (xs.map f) (f x :: seen.map f) from by
          simp [uniqueAux, hfx]]
      rw [show uniqueAux (x :: xs) seen = x :: uniqueAux xs (x :: seen) from by
        simp [uniqueAux, hx]]
      rw [List.map_cons]
      congr 1
      have : (f x :: seen.map f) = (x :: seen).map f := rfl
      rw [this]
      refine ih (x :: seen) ?_
      intro a ha b hb
      refine hinj a (List.mem_cons_of_mem _ ha) b ?_
      rcases hb with h | h
      · exact Or.inl (List.mem_cons_of_mem _ h)
      · rcases List.mem_cons.1 h with rfl | h
        · exact Or.inl (List.mem_cons_self _ _)
        · exact Or.inr h

theorem unique_map_of_inj {α β : Type} [DecidableEq α] [DecidableEq β]
    (f : α → β) (l : List α)
    (hinj : ∀ a ∈ l, ∀ b ∈ l, f a = f b → a = b) :
    unique (l.map f) = (unique l).map f := by
  have := uniqueAux_map f l []
    (fun a ha b hb hf => hinj a ha b (hb.resolve_right (by simp)) hf)
  simpa [unique] using this

theorem nodup_map_indexOf {l : List Nat} (hnd : l.Nodup) :
    l.map (fun u => List.indexOf u l) = List.range l.length := by
  apply List.ext_getElem
  · simp
  · intro i h1 h2
    have hl : i < l.length := by simpa using h1
    rw [List.getElem_map, List.getElem_range]
    have hm : l[i] ∈ l := List.getElem_mem hl
    have hlt : List.indexOf l[i] l < l.length := List.indexOf_lt_length.2 hm
    have := List.getElem_indexOf hlt
    exact (hnd.getElem_inj_iff).1 this

/-- The new ids after `users_mapping`, as a list in row order. -/
theorem users_mapping_ids (data : List Record) :
    (users_mapping data).map (·.user_id) =
      (data.map (·.user_id)).map
        (fun u => List.indexOf u (unique (data.map (·.user_id)))) := by
  simp [users_mapping, List.map_map, Function.comp]

/-- C10: `users_mapping` relabels the `n` distinct user ids with exactly
`0..n−1`, in order of each user's first appearance (the distinct new ids, in
first-appearance order, are the list `range n`), and two rows carry the same
new id iff they carried the same original id. -/
theorem users_mapping_dense_first_appearance (data : List Record) :
    (users_mapping data).length = data.length ∧
    unique ((users_mapping data).map (·.user_id)) =
      List.range (unique (data.map (·.user_id))).length ∧
    (∀ i j : Nat, i < data.length → j < data.length →
      (((users_mapping data).map (·.user_id))[i]? =
          ((users_mapping data).map (·.user_id))[j]? ↔
        (data.map (·.user_id))[i]? = (data.map (·.user_id))[j]?)) := by
  have hinj : ∀ a ∈ data.map (·.user_id), ∀ b ∈ data.map (·.user_id),
      List.indexOf a (unique (data.map (·.user_id))) =
        List.indexOf b (unique (data.map (·.user_id))) → a = b := by
    intro a ha b hb hEq
    exact (List.indexOf_inj (mem_unique.2 ha) (mem_unique.2 hb)).1 hEq
  refine ⟨by simp [users_mapping], ?_, ?_⟩
  · rw [users_mapping_ids,
      unique_map_of_inj _ _ hinj,
      nodup_map_indexOf (nodup_unique _)]
  · intro i j hi hj
    rw [users_mapping_ids]
    simp only [List.getElem?_map, List.getElem?_eq_getElem hi,
      List.getElem?_eq_getElem hj, Option.map_some', Option.some.injEq]
    constructor
    · intro hEq
      exact hinj _ (List.mem_map_of_mem _ (List.getElem_mem hi)) _
        (List.mem_map_of_mem _ (List.getElem_mem hj)) hEq
    · intro hEq
      rw [hEq]

/-- A data set with a repeated user id (5, 9, 5) for the C10 witness. -/
def dup_data : List Record :=
  [{ user_id := 5, latitude := 0, longitude := 0, sampletimestamp := 0,
     accuracy := 0, comm_radius := 0 },
   { user_id := 9, latitude := 0, longitude := 0, sampletimestamp := 1,
     accuracy := 0, comm_radius := 0 },
   { user_id := 5, latitude := 0, longitude := 0, sampletimestamp := 2,
     accuracy := 0, comm_radius := 0 }]

/-- Witness for C10 on `dup_data` (rows 0 and 2 share a user id). -/
theorem users_mapping_dense_first_appearance_witness :
    unique ((users_mapping dup_data).map (·.user_id)) =
      List.range (unique (dup_data.map (·.user_id))).length ∧
    (((users_mapping dup_data).map (·.user_id))[0]? =
        ((users_mapping dup_data).map (·.user_id))[2]? ↔
      (dup_data.map (·.user_id))[0]? = (dup_data.map (·.user_id))[2]?) :=
  ⟨(users_mapping_dense_first_appearance dup_data).2.1,
   (users_mapping_dense_first_appearance dup_data).2.2 0 2
     (by decide) (by decide)⟩

end Colocations
